import Mathlib

/-!
Verification of the modpath-cpp planner (`modpath_cpp/planner.py`, `modpath_cpp/cli.py`).

The Python source is shallowly embedded: pure helper functions become Lean
functions on `String`/`Nat`/`Int`/lists, the file system is modelled as an
explicit lookup function, Python's recursive DFS becomes a fuel-indexed
recursion (the fuel strictly exceeds the maximal possible recursion depth, so
the fuel-exhaustion branch is dead code), and `pathlib.Path.resolve()` (symlink
and `..` normalisation) is modelled as the syntactic identity on path strings.
-/

namespace ModpathCpp

/-! ## Path helpers (modelling `pathlib.Path.suffix` / `.parent` on POSIX strings) -/

/-- ASCII case lowering of one character (Python `str.lower()` restricted to
ASCII, which covers every header extension and standard flag compared by the
source). -/
def lowerChar (c : Char) : Char :=
  if 'A' ≤ c ∧ c ≤ 'Z' then Char.ofNat (c.toNat + 32) else c

/-- ASCII `str.lower()` on a whole string. -/
def lowerAscii (s : String) : String :=
  String.mk (s.toList.map lowerChar)

/-- Index of the last occurrence of `c` in `l`, if any. -/
def lastIndexOf (c : Char) : List Char → Option Nat
  | [] => none
  | x :: xs =>
    match lastIndexOf c xs with
    | some i => some (i + 1)
    | none => if x = c then some 0 else none

/-- The final path component (text after the last `/`). -/
def lastComponent (p : String) : String :=
  match lastIndexOf '/' p.toList with
  | some i => String.mk (p.toList.drop (i + 1))
  | none => p

/-- `pathlib.Path.suffix`: the extension of the final component, including the
dot; empty when the name has no dot, starts with its only dot, or ends in a
dot. -/
def pathSuffix (p : String) : String :=
  let name := (lastComponent p).toList
  match lastIndexOf '.' name with
  | some i => if 0 < i ∧ i + 1 < name.length then String.mk (name.drop i) else ""
  | none => ""

/-- `pathlib.Path.parent`: text before the last `/` (`"."` when there is no
slash, `"/"` for a top-level entry). -/
def parentDir (p : String) : String :=
  match lastIndexOf '/' p.toList with
  | some 0 => "/"
  | some i => String.mk (p.toList.take i)
  | none => "."

/-- `pathlib.Path.is_absolute` on POSIX: the path starts with `/`. -/
def isAbsolutePath (p : String) : Bool :=
  match p.toList with
  | '/' :: _ => true
  | _ => false

/-- `dir / name` for a relative `name` (`Path.resolve()` is modelled as the
identity on the joined string). -/
def joinPath (d : String) (f : String) : String :=
  d ++ "/" ++ f

/-! ## Risk scorer (`_risk_score`, `_risk_level`, `_recommendation`) -/

/-- Embedding of `_risk_score`.  The running score is an integer (Python int);
`macro_count` and `include_frequency` are the natural numbers produced by
`_count_defines` and the include-frequency counter.  `if macro_count:` is
Python integer truthiness, i.e. `mc ≠ 0`. -/
def risk_score (header : String) (freq mc : Nat) (inCycle : Bool) : Int × List String :=
  let r0 : Int := 10
  let rat0 : List String := ["included " ++ toString freq ++ " time(s) across scanned files"]
  let r1 : Int := if mc ≠ 0 then r0 + min 55 ((mc : Int) * 5) else r0
  let rat1 : List String := rat0 ++
    (if mc ≠ 0 then
      (if 8 ≤ mc then ["macro-heavy: " ++ toString mc ++ " #define directives"]
       else ["contains " ++ toString mc ++ " #define directives"])
     else ["no #define directives found"])
  let r2 : Int := if inCycle then r1 + 30 else r1
  let rat2 : List String := rat1 ++ (if inCycle then ["participates in an include cycle"] else [])
  let r3 : Int := if lowerAscii (pathSuffix header) = ".h" then r2 + 10 else r2
  let rat3 : List String := rat2 ++
    (if lowerAscii (pathSuffix header) = ".h" then [".h extension may indicate C/C++ mixed usage"] else [])
  let r4 : Int :=
    if freq ≤ 1 then r3 + 8
    else if 4 ≤ freq then max 0 (r3 - 6)
    else r3
  let rat4 : List String := rat3 ++
    (if freq ≤ 1 then ["low reuse means lower migration payoff"]
     else if 4 ≤ freq then ["high reuse improves migration payoff"]
     else [])
  (max 0 (min 100 r4), rat4)

/-- Embedding of `_risk_level`. -/
def risk_level (score : Int) : String :=
  if score ≤ 30 then "low"
  else if score ≤ 65 then "medium"
  else "high"

/-- Embedding of `_recommendation`. -/
def recommendation (riskScore : Int) (inCycle : Bool) : String :=
  if inCycle then "refactor include cycle before module migration"
  else if riskScore ≤ 30 then "P1 header unit candidate"
  else if riskScore ≤ 65 then "P2 named module pilot"
  else "defer until macro usage is reduced"

/-- Claim C2's formula, written exactly following the claim's words: a clamp to
`[0,100]` of base 10 plus the macro, cycle and extension penalties — the
extension penalty applying when the extension is exactly `.h` — with the reuse
adjustment applied to the running total. -/
def risk_score_claimC2 (header : String) (freq mc : Nat) (inCycle : Bool) : Int :=
  let t : Int := 10
    + (if 0 < mc then min 55 ((mc : Int) * 5) else 0)
    + (if inCycle then 30 else 0)
    + (if pathSuffix header = ".h" then 10 else 0)
  let t2 : Int :=
    if freq ≤ 1 then t + 8
    else if 4 ≤ freq then max 0 (t - 6)
    else t
  max 0 (min 100 t2)

/-- Claim C2 amended: as `risk_score_claimC2` but the extension test is
case-insensitive (the source compares `header.suffix.lower()` to `.h`). -/
def risk_score_amendedC2 (header : String) (freq mc : Nat) (inCycle : Bool) : Int :=
  let t : Int := 10
    + (if 0 < mc then min 55 ((mc : Int) * 5) else 0)
    + (if inCycle then 30 else 0)
    + (if lowerAscii (pathSuffix header) = ".h" then 10 else 0)
  let t2 : Int :=
    if freq ≤ 1 then t + 8
    else if 4 ≤ freq then max 0 (t - 6)
    else t
  max 0 (min 100 t2)

/-- C1 counterexample: at macro count 8 and include frequency 4 (no cycle,
`.hpp` extension) the high-reuse adjustment brings the score to 44, below the
claimed lower bound base+40 = 50. -/
theorem c1_counterexample :
    8 ≤ (8 : Nat) ∧ (risk_score "widget.hpp" 4 8 false).1 < 50 := by
  constructor
  · decide
  · decide

/-- C1 (amended): with macro count ≥ 8 the rationale always contains the
macro-heavy line, and the score is at least 44 (= base+40−6, the high-reuse
adjustment may subtract 6); whenever the include frequency is at most 3 the
score is at least base+40 = 50 as originally claimed. -/
theorem c1_macro_heavy (header : String) (freq mc : Nat) (inCycle : Bool) (h8 : 8 ≤ mc) :
    ("macro-heavy: " ++ toString mc ++ " #define directives") ∈ (risk_score header freq mc inCycle).2
    ∧ 44 ≤ (risk_score header freq mc inCycle).1
    ∧ (freq ≤ 3 → 50 ≤ (risk_score header freq mc inCycle).1) := by
  have hmc : mc ≠ 0 := by omega
  refine ⟨?_, ?_, ?_⟩
  · simp only [risk_score, if_pos hmc, if_pos h8, List.mem_append, List.mem_singleton]
    split_ifs <;> simp
  · simp only [risk_score]
    rw [if_pos hmc]
    split_ifs <;> omega
  · intro hf
    simp only [risk_score]
    rw [if_pos hmc]
    split_ifs <;> omega

/-- C1 witness: the amended statement evaluated at header `config.h`,
frequency 1, macro count 8, no cycle. -/
theorem c1_macro_heavy_witness :
    ("macro-heavy: " ++ toString (8 : Nat) ++ " #define directives")
        ∈ (risk_score "config.h" 1 8 false).2
    ∧ 44 ≤ (risk_score "config.h" 1 8 false).1
    ∧ ((1 : Nat) ≤ 3 → 50 ≤ (risk_score "config.h" 1 8 false).1) :=
  c1_macro_heavy "config.h" 1 8 false (by decide)

/-- C2 counterexample: on a header whose extension is `.H` (upper case) the
source adds the extension penalty (it lowercases the suffix first), while the
claim's formula — extension *exactly* `.h` — does not: 20 versus 10. -/
theorem c2_counterexample :
    (risk_score "config.H" 2 0 false).1 ≠ risk_score_claimC2 "config.H" 2 0 false := by
  decide

/-- C2 (amended): the risk score equals the claimed clamped additive formula,
with the extension bonus applying when the lowercased extension is `.h`
(case-insensitive), rather than when it is exactly `.h`. -/
theorem c2_formula (header : String) (freq mc : Nat) (inCycle : Bool) :
    (risk_score header freq mc inCycle).1 = risk_score_amendedC2 header freq mc inCycle := by
  simp only [risk_score, risk_score_amendedC2]
  split_ifs <;> omega

/-- C6: the recommendation is forced to the cycle-refactor string by cycle
membership regardless of score; otherwise score ≤ 30 yields the header-unit
pilot, 31..65 the named-module pilot, and above 65 the defer string. -/
theorem c6_recommendation (score : Int) (inCycle : Bool) :
    (inCycle = true → recommendation score inCycle = "refactor include cycle before module migration")
    ∧ (inCycle = false → score ≤ 30 → recommendation score inCycle = "P1 header unit candidate")
    ∧ (inCycle = false → 31 ≤ score → score ≤ 65 →
        recommendation score inCycle = "P2 named module pilot")
    ∧ (inCycle = false → 65 < score →
        recommendation score inCycle = "defer until macro usage is reduced") := by
  refine ⟨?_, ?_, ?_, ?_⟩ <;> intro hc
  · simp [recommendation, hc]
  · intro h; simp [recommendation, hc, h]
  · intro h1 h2
    have : ¬ score ≤ 30 := by omega
    simp [recommendation, hc, this, h2]
  · intro h
    have h1 : ¬ score ≤ 30 := by omega
    have h2 : ¬ score ≤ 65 := by omega
    simp [recommendation, hc, h1, h2]

/-- C6 witness: the four recommendation regimes at concrete scores. -/
theorem c6_recommendation_witness :
    recommendation 90 true = "refactor include cycle before module migration"
    ∧ recommendation 10 false = "P1 header unit candidate"
    ∧ recommendation 40 false = "P2 named module pilot"
    ∧ recommendation 70 false = "defer until macro usage is reduced" :=
  ⟨(c6_recommendation 90 true).1 rfl,
   (c6_recommendation 10 false).2.1 rfl (by decide),
   (c6_recommendation 40 false).2.2.1 rfl (by decide) (by decide),
   (c6_recommendation 70 false).2.2.2 rfl (by decide)⟩

/-! ## Candidates and the ranking order (`analyze_compile_commands`, lines 205-213) -/

/-- Embedding of the `Candidate` dataclass. -/
structure Candidate where
  header : String
  include_frequency : Nat
  macro_defines : Nat
  in_cycle : Bool
  risk_score : Int
  risk_level : String
  recommendation : String
  rationale : List String
  suggested_module : Option String
deriving DecidableEq, Repr

/-- The sort key tuple from `candidates.sort(key=..., reverse=True)`:
`(freq*12 - score, freq, -score, header)`. -/
def rankKey (c : Candidate) : Int × Int × Int × String :=
  ((c.include_frequency : Int) * 12 - c.risk_score,
   (c.include_frequency : Int),
   -c.risk_score,
   c.header)

/-- Strict lexicographic order on sort-key tuples (Python tuple `<`). -/
def keyLt (a b : Int × Int × Int × String) : Prop :=
  a.1 < b.1
  ∨ (a.1 = b.1 ∧ (a.2.1 < b.2.1
      ∨ (a.2.1 = b.2.1 ∧ (a.2.2.1 < b.2.2.1
          ∨ (a.2.2.1 = b.2.2.1 ∧ a.2.2.2 < b.2.2.2)))))

instance : DecidableRel keyLt := fun a b => by
  unfold keyLt
  infer_instance

/-- `a` is ranked strictly before `b` by the source's sort: descending on the
key tuple, so `a` comes first exactly when its key is strictly larger. -/
def code_before (a b : Candidate) : Prop :=
  keyLt (rankKey b) (rankKey a)

/-- The ranking order as the spec words it: primary key `freq*12 - score`
descending, then `includeFrequency` descending, then `riskScore` ascending,
then header path descending lexicographically. -/
def spec_before (a b : Candidate) : Prop :=
  ((b.include_frequency : Int) * 12 - b.risk_score < (a.include_frequency : Int) * 12 - a.risk_score)
  ∨ ((b.include_frequency : Int) * 12 - b.risk_score = (a.include_frequency : Int) * 12 - a.risk_score
     ∧ (b.include_frequency < a.include_frequency
        ∨ (b.include_frequency = a.include_frequency
           ∧ (a.risk_score < b.risk_score
              ∨ (a.risk_score = b.risk_score ∧ b.header < a.header)))))

theorem keyLt_irrefl (a : Int × Int × Int × String) : ¬ keyLt a a := by
  unfold keyLt
  rintro (h | ⟨-, h | ⟨-, h | ⟨-, h⟩⟩⟩) <;> first | omega | exact lt_irrefl _ h

theorem keyLt_trans {a b c : Int × Int × Int × String} :
    keyLt a b → keyLt b c → keyLt a c := by
  unfold keyLt
  rintro (h1 | ⟨e1, h1 | ⟨e1', h1 | ⟨e1'', h1⟩⟩⟩) (h2 | ⟨e2, h2 | ⟨e2', h2 | ⟨e2'', h2⟩⟩⟩) <;>
    first
      | (left; omega)
      | (right; refine ⟨by omega, ?_⟩; left; omega)
      | (right; refine ⟨by omega, ?_⟩; right; refine ⟨by omega, ?_⟩; left; omega)
      | (right; refine ⟨by omega, ?_⟩; right; refine ⟨by omega, ?_⟩; right;
         exact ⟨by omega, lt_trans h1 h2⟩)

theorem keyLt_total (a b : Int × Int × Int × String) : keyLt a b ∨ keyLt b a ∨ a = b := by
  obtain ⟨a1, a2, a3, a4⟩ := a
  obtain ⟨b1, b2, b3, b4⟩ := b
  unfold keyLt
  rcases lt_trichotomy a1 b1 with h1 | h1 | h1
  · exact Or.inl (Or.inl h1)
  · rcases lt_trichotomy a2 b2 with h2 | h2 | h2
    · exact Or.inl (Or.inr ⟨h1, Or.inl h2⟩)
    · rcases lt_trichotomy a3 b3 with h3 | h3 | h3
      · exact Or.inl (Or.inr ⟨h1, Or.inr ⟨h2, Or.inl h3⟩⟩)
      · rcases lt_trichotomy a4 b4 with h4 | h4 | h4
        · exact Or.inl (Or.inr ⟨h1, Or.inr ⟨h2, Or.inr ⟨h3, h4⟩⟩⟩)
        · subst h1; subst h2; subst h3; subst h4; exact Or.inr (Or.inr rfl)
        · exact Or.inr (Or.inl (Or.inr ⟨h1.symm, Or.inr ⟨h2.symm, Or.inr ⟨h3.symm, h4⟩⟩⟩))
      · exact Or.inr (Or.inl (Or.inr ⟨h1.symm, Or.inr ⟨h2.symm, Or.inl h3⟩⟩))
    · exact Or.inr (Or.inl (Or.inr ⟨h1.symm, Or.inl h2⟩))
  · exact Or.inr (Or.inl (Or.inl h1))

theorem rankKey_eq_fields {a b : Candidate} (h : rankKey a = rankKey b) :
    a.header = b.header ∧ a.include_frequency = b.include_frequency ∧ a.risk_score = b.risk_score := by
  simp only [rankKey, Prod.mk.injEq] at h
  obtain ⟨h1, h2, h3, h4⟩ := h
  refine ⟨h4, ?_, by omega⟩
  exact_mod_cast h2

/-- C3: the source's ranking comparator is exactly the spec's description —
primary key `includeFrequency*12 - riskScore` descending, ties by frequency
descending, then risk ascending, then header descending — and it is an
irreflexive, transitive, total order that is fully specified: equal keys force
equal header, frequency and score. -/
theorem c3_ranking_order (a b c : Candidate) :
    (code_before a b ↔ spec_before a b)
    ∧ ¬ code_before a a
    ∧ (code_before a b ∨ code_before b a ∨ rankKey a = rankKey b)
    ∧ (rankKey a = rankKey b →
        a.header = b.header ∧ a.include_frequency = b.include_frequency ∧ a.risk_score = b.risk_score)
    ∧ (code_before a b → code_before b c → code_before a c) := by
  refine ⟨?_, keyLt_irrefl _, ?_, rankKey_eq_fields, fun h1 h2 => keyLt_trans h2 h1⟩
  · simp only [code_before, keyLt, rankKey, spec_before]
    constructor
    · rintro (h | ⟨e, h | ⟨e', h | ⟨e'', h⟩⟩⟩)
      · exact Or.inl h
      · exact Or.inr ⟨e, Or.inl (by exact_mod_cast h)⟩
      · exact Or.inr ⟨e, Or.inr ⟨by exact_mod_cast e', Or.inl (by omega)⟩⟩
      · exact Or.inr ⟨e, Or.inr ⟨by exact_mod_cast e', Or.inr ⟨by omega, h⟩⟩⟩
    · rintro (h | ⟨e, h | ⟨e', h | ⟨e'', h⟩⟩⟩)
      · exact Or.inl h
      · exact Or.inr ⟨e, Or.inl (by exact_mod_cast h)⟩
      · exact Or.inr ⟨e, Or.inr ⟨by exact_mod_cast e', Or.inl (by omega)⟩⟩
      · exact Or.inr ⟨e, Or.inr ⟨by exact_mod_cast e', Or.inr ⟨by omega, h⟩⟩⟩
  · rcases keyLt_total (rankKey a) (rankKey b) with h | h | h
    · exact Or.inr (Or.inl h)
    · exact Or.inl h
    · exact Or.inr (Or.inr h)

/-- C3 witness: the comparator evaluated on two concrete candidates — higher
primary key ranks first. -/
theorem c3_ranking_order_witness :
    code_before
      ⟨"a.hpp", 5, 0, false, 10, "low", "P1 header unit candidate", [], some "a"⟩
      ⟨"b.hpp", 1, 0, false, 10, "low", "P1 header unit candidate", [], some "b"⟩
    ∧ ¬ code_before
      ⟨"a.hpp", 5, 0, false, 10, "low", "P1 header unit candidate", [], some "a"⟩
      ⟨"a.hpp", 5, 0, false, 10, "low", "P1 header unit candidate", [], some "a"⟩ :=
  ⟨(c3_ranking_order _ _ ⟨"b.hpp", 1, 0, false, 10, "low", "P1 header unit candidate", [], some "b"⟩).1.mpr
      (Or.inl (by decide)),
   (c3_ranking_order
      ⟨"a.hpp", 5, 0, false, 10, "low", "P1 header unit candidate", [], some "a"⟩
      ⟨"b.hpp", 1, 0, false, 10, "low", "P1 header unit candidate", [], some "b"⟩
      ⟨"b.hpp", 1, 0, false, 10, "low", "P1 header unit candidate", [], some "b"⟩).2.1⟩

/-! ## Include resolver (`_resolve_include`) -/

/-- Embedding of `_resolve_include`.  The file system is the existence
predicate `fs`; `Path.resolve()` is the identity on the syntactic join. -/
def resolve_include (fs : String → Bool) (include_name : String) (include_kind : Char)
    (including_file : String) (include_dirs : List String) : Option String :=
  if isAbsolutePath include_name && fs include_name then some include_name
  else
    let candidates : List String :=
      (if include_kind = '\"' then [joinPath (parentDir including_file) include_name] else [])
      ++ include_dirs.map (fun d => joinPath d include_name)
    candidates.find? fs

theorem find?_eq_of_first (p : α → Bool) :
    ∀ (l : List α) (i : Nat) (h : i < l.length),
      p (l.get ⟨i, h⟩) = true →
      (∀ j (hj : j < i), p (l.get ⟨j, Nat.lt_trans hj h⟩) = false) →
      l.find? p = some (l.get ⟨i, h⟩)
  | a :: l, 0, _, hp, _ => by
      simp only [List.get] at hp ⊢
      simp [List.find?, hp]
  | a :: l, i+1, h, hp, hprev => by
      have ha : p a = false := hprev 0 (Nat.succ_pos i)
      simp only [List.find?, ha]
      exact find?_eq_of_first p l i (Nat.lt_of_succ_lt_succ h) hp
        (fun j hj => hprev (j+1) (Nat.succ_lt_succ hj))

/-- The candidate list as the spec describes it: for a quoted include the
requesting file's directory first, then every search directory in the
supplied order; for an angle include the search directories only. -/
def tried_candidates (name : String) (kind : Char) (req : String) (dirs : List String) :
    List String :=
  (if kind = '\"' then [joinPath (parentDir req) name] else [])
    ++ dirs.map (fun d => joinPath d name)

/-- C4: resolution order of `_resolve_include`.  An absolute spelling that
exists is returned directly; otherwise the tried-candidate list is the
requesting file's directory first (quoted form only) followed by the search
directories in the supplied order, the first existing candidate is returned,
and the result is `none` when no candidate exists. -/
theorem c4_resolve_include (fs : String → Bool) (name : String) (kind : Char)
    (req : String) (dirs : List String) :
    (isAbsolutePath name = true → fs name = true →
      resolve_include fs name kind req dirs = some name)
    ∧ (¬ (isAbsolutePath name = true ∧ fs name = true) →
        resolve_include fs name kind req dirs = (tried_candidates name kind req dirs).find? fs)
    ∧ (¬ (isAbsolutePath name = true ∧ fs name = true) →
        (∀ c ∈ tried_candidates name kind req dirs, fs c = false) →
        resolve_include fs name kind req dirs = none)
    ∧ (¬ (isAbsolutePath name = true ∧ fs name = true) →
        ∀ i (h : i < (tried_candidates name kind req dirs).length),
          fs ((tried_candidates name kind req dirs).get ⟨i, h⟩) = true →
          (∀ j (hj : j < i),
            fs ((tried_candidates name kind req dirs).get ⟨j, Nat.lt_trans hj h⟩) = false) →
          resolve_include fs name kind req dirs =
            some ((tried_candidates name kind req dirs).get ⟨i, h⟩)) := by
  have hbase : ¬ (isAbsolutePath name = true ∧ fs name = true) →
      resolve_include fs name kind req dirs = (tried_candidates name kind req dirs).find? fs := by
    intro hn
    have hneg : (isAbsolutePath name && fs name) = false := by
      cases h : (isAbsolutePath name && fs name) with
      | false => rfl
      | true => exact absurd (by simpa [Bool.and_eq_true] using h) hn
    simp only [resolve_include, hneg, Bool.false_eq_true, if_false]
    rfl
  refine ⟨?_, hbase, ?_, ?_⟩
  · intro h1 h2
    simp [resolve_include, h1, h2]
  · intro hn hall
    rw [hbase hn]
    exact List.find?_eq_none.mpr (fun x hx => by simp [hall x hx])
  · intro hn i h hp hprev
    rw [hbase hn]
    exact find?_eq_of_first fs _ i h hp hprev

/-- C4 witness: a quoted include found in a search directory after the
requesting directory missed, and an absolute include returned directly. -/
theorem c4_resolve_include_witness :
    resolve_include (fun s => s == "/inc/x.h") "x.h" '\"' "/src/main.cpp" ["/inc"]
        = some "/inc/x.h"
    ∧ resolve_include (fun s => s == "/abs/y.h") "/abs/y.h" '<' "/src/main.cpp" []
        = some "/abs/y.h" := by
  constructor
  · rw [(c4_resolve_include (fun s => s == "/inc/x.h") "x.h" '\"' "/src/main.cpp"
      ["/inc"]).2.1 (by decide)]
    decide
  · exact (c4_resolve_include (fun s => s == "/abs/y.h") "/abs/y.h" '<' "/src/main.cpp" []).1
      (by decide) (by decide)

/-! ## Header scanning (`_parse_includes`, `_count_defines`, `_is_header`) -/

/-- File-system model for header scanning: `none` = the file does not exist
(`path.exists()` is false); `some none` = the file exists but reading it
raises an `OSError` (permission denied, transient I/O failure); `some (some
lines)` = the readable text split into lines. -/
def FileSys : Type := String → Option (Option (List String))

/-- Python regex `\s`: ASCII whitespace. -/
def isSpaceChar (c : Char) : Bool :=
  c == ' ' || c == '\t' || c == '\n' || c == '\x0b' || c == '\x0c' || c == '\r'

/-- `str.strip()` on a character list. -/
def stripSpaces (l : List Char) : List Char :=
  ((l.dropWhile isSpaceChar).reverse.dropWhile isSpaceChar).reverse

/-- One line against `INCLUDE_RE = ^\s*#\s*include\s*([<"])([^">]+)[">]`,
returning the delimiter kind and the stripped include name on a match. -/
def parse_include_line (line : String) : Option (Char × String) :=
  match line.toList.dropWhile isSpaceChar with
  | '#' :: rest =>
    let l2 := rest.dropWhile isSpaceChar
    if l2.take 7 = "include".toList then
      match (l2.drop 7).dropWhile isSpaceChar with
      | c :: rest2 =>
        if c = '<' ∨ c = '\"' then
          match rest2.span (fun ch => !(ch == '\"' || ch == '>')) with
          | ([], _) => none
          | (_, []) => none
          | (nm, close :: _) =>
            if close = '\"' ∨ close = '>' then some (c, String.mk (stripSpaces nm)) else none
        else none
      | [] => none
    else none
  | _ => none

/-- Embedding of `_parse_includes`: missing or unreadable files yield no
includes; otherwise every line matching the include regex contributes one
`(kind, name)` pair, in line order. -/
def parse_includes (fs : FileSys) (path : String) : List (Char × String) :=
  match fs path with
  | none => []
  | some none => []
  | some (some lines) => lines.filterMap parse_include_line

/-- One line against `DEFINE_RE = ^\s*#\s*define\b`. -/
def is_define_line (line : String) : Bool :=
  match line.toList.dropWhile isSpaceChar with
  | '#' :: rest =>
    let l2 := rest.dropWhile isSpaceChar
    (l2.take 6 == "define".toList) &&
      (match l2.drop 6 with
       | [] => true
       | c :: _ => !(c.isAlphanum || c == '_'))
  | _ => false

/-- `HEADER_SUFFIXES`. -/
def HEADER_SUFFIXES : List String := [".h", ".hh", ".hpp", ".hxx", ".inc", ".ipp"]

/-- Embedding of `_is_header`. -/
def is_header (path : String) : Bool :=
  HEADER_SUFFIXES.contains (lowerAscii (pathSuffix path))

/-- Embedding of `_count_defines`: 0 for a missing file, a non-header path, or
an unreadable file; otherwise the number of `#define` lines. -/
def count_defines (fs : FileSys) (path : String) : Nat :=
  match fs path with
  | none => 0
  | some content =>
    if !is_header path then 0
    else
      match content with
      | none => 0
      | some lines => (lines.filter is_define_line).length

/-- C8: a header whose text cannot be read — missing file, or any OS-level
error while reading — produces an empty include list and macro count 0; both
scanning functions are total, so a run never aborts on such a header. -/
theorem c8_unreadable_header (fs : FileSys) (path : String)
    (h : fs path = none ∨ fs path = some none) :
    parse_includes fs path = [] ∧ count_defines fs path = 0 := by
  rcases h with h | h <;>
    simp [parse_includes, count_defines, h]

/-- C8 witness: a file system where every read fails. -/
theorem c8_unreadable_header_witness :
    parse_includes (fun _ => some none) "include/config.h" = []
    ∧ count_defines (fun _ => some none) "include/config.h" = 0 :=
  c8_unreadable_header (fun _ => some none) "include/config.h" (Or.inr rfl)

/-! ## Readiness checks and report assembly
(`_is_cxx20_or_newer`, `_build_readiness_checks`, `analyze_compile_commands`
lines 216-239, `PlannerReport.to_dict`) -/

/-- Does `l` start with `pat`? -/
def startsWithChars : List Char → List Char → Bool
  | _, [] => true
  | [], _ :: _ => false
  | c :: cs, p :: ps => c == p && startsWithChars cs ps

/-- Python `pat in l` substring containment. -/
def containsSub (pat : List Char) : List Char → Bool
  | [] => startsWithChars [] pat
  | c :: rest => startsWithChars (c :: rest) pat || containsSub pat rest

/-- Value of the maximal leading digit run, accumulator style (`int()` of the
regex group `(\d+)`). -/
def digitsVal : List Char → Nat → Nat
  | [], acc => acc
  | c :: rest, acc => if c.isDigit then digitsVal rest (acc * 10 + (c.toNat - 48)) else acc

/-- First match of `re.search(r"\+\+(\d+)", value)`: scan left to right for
`++` followed by at least one digit, returning the numeric value of the
maximal digit run. -/
def findPlusPlusNum : List Char → Option Nat
  | '+' :: '+' :: c :: rest =>
    if c.isDigit then some (digitsVal (c :: rest) 0)
    else findPlusPlusNum ('+' :: c :: rest)
  | _ :: rest => findPlusPlusNum rest
  | [] => none
termination_by l => l.length
decreasing_by all_goals simp

/-- Embedding of `_is_cxx20_or_newer`. -/
def is_cxx20_or_newer (std_flag : String) : Bool :=
  let value := lowerAscii std_flag
  if value == "unknown" then false
  else if containsSub "c++2a".toList value.toList || containsSub "c++2b".toList value.toList then
    true
  else
    match findPlusPlusNum value.toList with
    | some n => decide (20 ≤ n)
    | none => false

/-- Embedding of `_build_readiness_checks`; each check is a
`(title, status, details)` triple.  `macro_counts` carries the
`_count_defines` results per scanned header; `unresolved_count` is the length
of the full (untruncated) unresolved-include list, exactly as passed at call
site `analyze_compile_commands` line 220. -/
def build_readiness_checks (tu_std_flags : List String)
    (macro_counts : List (String × Nat)) (cycle_nodes : List String)
    (unresolved_count : Nat) : List (String × String × String) :=
  let non_cxx20 := tu_std_flags.filter (fun f => !is_cxx20_or_newer f)
  let heavy := macro_counts.filter (fun hc => decide (8 ≤ hc.2))
  [("C++20 compiler mode coverage",
    (if non_cxx20.isEmpty then "pass" else "warn"),
    (if non_cxx20.isEmpty then "All translation units appear to use C++20+ flags"
     else toString non_cxx20.length ++ " TU(s) are below C++20 or missing -std flag")),
   ("Include cycle cleanup",
    (if cycle_nodes.isEmpty then "pass" else "warn"),
    (if cycle_nodes.isEmpty then "No include cycles detected"
     else toString cycle_nodes.length ++ " header(s) are part of cycle(s)")),
   ("Macro-heavy header reduction",
    (if heavy.isEmpty then "pass" else "warn"),
    (if heavy.isEmpty then "No macro-heavy headers detected"
     else toString heavy.length ++ " header(s) have >= 8 #define directives")),
   ("Include resolution quality",
    (if unresolved_count == 0 then "pass" else "warn"),
    (if unresolved_count == 0 then "All scanned includes resolved"
     else toString unresolved_count ++ " unresolved include(s); verify include paths"))]

/-- Embedding of the `PlannerReport` dataclass (the `phases` member, which no
claim touches, is not modelled).  `unresolved_includes` entries are
`(from, include)` pairs. -/
structure PlannerReport where
  input_file : String
  project_root : String
  translation_units : Nat
  scanned_headers : Nat
  cycle_header_count : Nat
  candidates : List Candidate
  readiness_checks : List (String × String × String)
  unresolved_includes : List (String × String)

/-- The tail of `analyze_compile_commands` (lines 216-239): readiness checks
are built from the full unresolved list's length, while the stored
`unresolved_includes` member is truncated to the first 50 entries. -/
def assemble_report (input_file project_root : String) (tu_std_flags : List String)
    (macro_counts : List (String × Nat)) (cycle_nodes : List String)
    (candidates : List Candidate) (scanned_headers : Nat)
    (unresolved : List (String × String)) : PlannerReport :=
  { input_file := input_file
    project_root := project_root
    translation_units := tu_std_flags.length
    scanned_headers := scanned_headers
    cycle_header_count := cycle_nodes.length
    candidates := candidates
    readiness_checks :=
      build_readiness_checks tu_std_flags macro_counts cycle_nodes unresolved.length
    unresolved_includes := unresolved.take 50 }

/-- `PlannerReport.to_dict` line 64: the serialized summary's
`unresolved_include_count` is the length of the stored (truncated) list. -/
def summary_unresolved_count (r : PlannerReport) : Nat :=
  r.unresolved_includes.length

/-- C10: the report stores only the first 50 unresolved quoted includes, the
serialized `unresolved_include_count` equals `min 50 total` and never exceeds
50, the "Include resolution quality" readiness check reports the full
untruncated count, and the two numbers differ whenever more than 50 includes
are unresolved. -/
theorem c10_unresolved_truncation (input_file project_root : String)
    (flags : List String) (mcs : List (String × Nat)) (cyc : List String)
    (cands : List Candidate) (scanned : Nat) (unresolved : List (String × String)) :
    (assemble_report input_file project_root flags mcs cyc cands scanned
        unresolved).unresolved_includes = unresolved.take 50
    ∧ summary_unresolved_count (assemble_report input_file project_root flags mcs cyc cands
        scanned unresolved) = min 50 unresolved.length
    ∧ summary_unresolved_count (assemble_report input_file project_root flags mcs cyc cands
        scanned unresolved) ≤ 50
    ∧ (assemble_report input_file project_root flags mcs cyc cands scanned
        unresolved).readiness_checks.get? 3
      = some ("Include resolution quality",
          (if unresolved.length == 0 then "pass" else "warn"),
          (if unresolved.length == 0 then "All scanned includes resolved"
           else toString unresolved.length ++ " unresolved include(s); verify include paths"))
    ∧ (50 < unresolved.length →
        summary_unresolved_count (assemble_report input_file project_root flags mcs cyc cands
          scanned unresolved) ≠ unresolved.length) := by
  have hlen : summary_unresolved_count (assemble_report input_file project_root flags mcs cyc
      cands scanned unresolved) = min 50 unresolved.length := by
    simp [summary_unresolved_count, assemble_report, List.length_take]
  refine ⟨rfl, hlen, by omega, rfl, fun h => by omega⟩

/-- C10 witness: with 51 unresolved includes the summary count is 50 and
differs from the untruncated total. -/
theorem c10_unresolved_truncation_witness :
    summary_unresolved_count (assemble_report "db.json" "/proj" [] [] [] [] 0
        (List.replicate 51 ("src/a.cpp", "missing.h")))
      ≠ (List.replicate 51 ("src/a.cpp", "missing.h")).length :=
  (c10_unresolved_truncation "db.json" "/proj" [] [] [] [] 0
      (List.replicate 51 ("src/a.cpp", "missing.h"))).2.2.2.2 (by simp)

/-! ## Input loading and the CLI error contract
(`_load_compile_commands`, `_collect_translation_units`, `cli.main`) -/

/-- Parsed JSON values (numbers modelled as integers). -/
inductive JVal where
  | null
  | bool (b : Bool)
  | num (n : Int)
  | str (s : String)
  | arr (elems : List JVal)
  | obj (fields : List (String × JVal))

/-- Python truthiness of a parsed JSON value. -/
def JVal.truthy : JVal → Bool
  | .null => false
  | .bool b => b
  | .num n => n != 0
  | .str s => !s.data.isEmpty
  | .arr xs => !xs.isEmpty
  | .obj fs => !fs.isEmpty

/-- A parsed JSON object (`dict`): key/value pairs, unique keys. -/
abbrev JObj := List (String × JVal)

/-- `dict.get(key)`. -/
def jget (fields : JObj) (key : String) : Option JVal :=
  (fields.find? (fun kv => kv.1 == key)).map Prod.snd

/-- The exceptions the pipeline can raise.  `typeErr` models the `TypeError`
that `Path(value)` raises on a truthy non-string argument; the CLI does not
catch it. -/
inductive PyErr where
  | fileNotFound
  | jsonDecode
  | valueErr
  | typeErr
deriving DecidableEq

/-- Input model for the compile database: `none` = the file is missing;
`some none` = the file exists but its content is not valid JSON;
`some (some j)` = the parsed JSON value. -/
def DbInput : Type := Option (Option JVal)

/-- Embedding of `_load_compile_commands`: missing file raises
`FileNotFoundError`, unparsable content raises `json.JSONDecodeError`, a
non-array top level raises `ValueError`, and non-object entries are filtered
out. -/
def load_compile_commands : DbInput → Except PyErr (List JObj)
  | none => .error .fileNotFound
  | some none => .error .jsonDecode
  | some (some payload) =>
    match payload with
    | .arr entries =>
      .ok (entries.filterMap (fun e => match e with | .obj fs => some fs | _ => none))
    | _ => .error .valueErr

/-- Core of one `_collect_translation_units` iteration, as a function of the
looked-up `file` and `directory` values: an entry with a missing or falsy
`file` value is skipped (`ok false`); otherwise `Path(...)` is applied first
to a truthy `directory` value and then to the `file` value, raising
`TypeError` on a non-string argument; `ok true` means the entry is kept. -/
def collect_entry_vals : Option JVal → Option JVal → Except PyErr Bool
  | none, _ => .ok false
  | some fv, dirVal =>
    if fv.truthy then
      match dirVal with
      | some dv =>
        if dv.truthy then
          match dv with
          | .str _ =>
            (match fv with
             | .str _ => .ok true
             | _ => .error .typeErr)
          | _ => .error .typeErr
        else
          (match fv with
           | .str _ => .ok true
           | _ => .error .typeErr)
      | none =>
        (match fv with
         | .str _ => .ok true
         | _ => .error .typeErr)
    else .ok false

/-- One iteration of the `_collect_translation_units` loop on a filtered
object entry. -/
def collect_entry (entry : JObj) : Except PyErr (Option JObj) :=
  match collect_entry_vals (jget entry "file") (jget entry "directory") with
  | .error err => .error err
  | .ok true => .ok (some entry)
  | .ok false => .ok none

/-- Embedding of the `_collect_translation_units` loop: entries processed in
order, the first raising entry aborts, and the usable entries are kept. -/
def collect_usable : List JObj → Except PyErr (List JObj)
  | [] => .ok []
  | e :: es =>
    match collect_entry e with
    | .error err => .error err
    | .ok r =>
      match collect_usable es with
      | .error err => .error err
      | .ok rest => .ok (match r with | some x => x :: rest | none => rest)

/-- `analyze_compile_commands` up to the `if not tus: raise ValueError`
guard; the rest of the analysis raises nothing, so the outcome is the usable
translation-unit count. -/
def analyze_outcome (db : DbInput) : Except PyErr Nat :=
  match load_compile_commands db with
  | .error e => .error e
  | .ok entries =>
    match collect_usable entries with
    | .error e => .error e
    | .ok tus => if tus.isEmpty then .error .valueErr else .ok tus.length

/-- `cli.main`: `FileNotFoundError`, `ValueError` and `json.JSONDecodeError`
map to exit code 2 with a stderr message; an uncaught `TypeError` aborts the
interpreter with exit code 1; otherwise the report prints and the exit code
is 0. -/
def main_exit (db : DbInput) : Nat :=
  match analyze_outcome db with
  | .error .typeErr => 1
  | .error _ => 2
  | .ok _ => 0

/-- The error condition exactly as claim C7 words it: missing file, invalid
JSON, top-level value not an array, or zero usable translation units after
filtering non-object entries and entries without a `file` value. -/
def claimC7_error (db : DbInput) : Bool :=
  match db with
  | none => true
  | some none => true
  | some (some (.arr entries)) =>
    ((entries.filterMap (fun e => match e with | .obj fs => some fs | _ => none)).filter
        (fun fields => (jget fields "file").isSome)).isEmpty
  | some (some _) => true

/-- `file`/`directory` values on which the collection loop raises
`TypeError`: truthy `file` value together with a truthy non-string
`directory` value or a non-string `file` value. -/
def entry_bad_vals (fileVal dirVal : Option JVal) : Bool :=
  match fileVal with
  | none => false
  | some fv =>
    fv.truthy &&
      ((match dirVal with
        | some dv => dv.truthy && (match dv with | .str _ => false | _ => true)
        | none => false)
       || (match fv with | .str _ => false | _ => true))

/-- An entry on which the collection loop raises `TypeError`. -/
def entry_bad (fields : JObj) : Bool :=
  entry_bad_vals (jget fields "file") (jget fields "directory")

/-- An entry kept as a usable translation unit: truthy `file` value and no
`TypeError`. -/
def entry_usable (fields : JObj) : Bool :=
  (match jget fields "file" with
   | none => false
   | some fv => fv.truthy) && !entry_bad fields

/-- Amended C7, exit-code-2 condition: missing file, invalid JSON, top-level
not an array, or — with no `TypeError`-raising entry — zero usable entries,
where an entry is usable when it is an object whose `file` value is present
and truthy (Python truthiness: `""`, `0`, `false`, `null`, `[]`, `{}` are
filtered out, not only missing values). -/
def amendedC7_exit2 (db : DbInput) : Bool :=
  match db with
  | none => true
  | some none => true
  | some (some (.arr entries)) =>
    let objs := entries.filterMap (fun e => match e with | .obj fs => some fs | _ => none)
    !(objs.any entry_bad) && (objs.filter entry_usable).isEmpty
  | some (some _) => true

/-- Amended C7, crash condition: some object entry has a truthy `file` value
but a non-string `file` or truthy non-string `directory` value, so `Path()`
raises an uncaught `TypeError`. -/
def amendedC7_exit1 (db : DbInput) : Bool :=
  match db with
  | some (some (.arr entries)) =>
    (entries.filterMap (fun e => match e with | .obj fs => some fs | _ => none)).any entry_bad
  | _ => false

theorem collect_entry_vals_spec (fileVal dirVal : Option JVal) :
    collect_entry_vals fileVal dirVal =
      (if entry_bad_vals fileVal dirVal then .error .typeErr
       else .ok ((match fileVal with | none => false | some fv => fv.truthy)
                  && !entry_bad_vals fileVal dirVal)) := by
  rcases fileVal with _ | fv
  · simp [collect_entry_vals, entry_bad_vals]
  · simp only [collect_entry_vals, entry_bad_vals]
    cases htr : fv.truthy
    · simp
    · rcases dirVal with _ | dv
      · cases fv <;> simp_all [collect_entry_vals, entry_bad_vals]
      · cases hdtr : dv.truthy
        · cases fv <;> simp_all [collect_entry_vals, entry_bad_vals]
        · cases dv <;> cases fv <;> simp_all [collect_entry_vals, entry_bad_vals]

theorem collect_entry_spec (e : JObj) :
    collect_entry e =
      (if entry_bad e then .error .typeErr
       else .ok (if entry_usable e then some e else none)) := by
  simp only [collect_entry, entry_bad, entry_usable,
    collect_entry_vals_spec (jget e "file") (jget e "directory")]
  by_cases hb : entry_bad_vals (jget e "file") (jget e "directory")
  · simp [hb]
  · rw [if_neg hb, if_neg hb]
    split <;> rename_i heq
    · exact absurd heq (by simp)
    · injection heq with h
      simp [h]
    · injection heq with h
      simp [h]

theorem collect_usable_spec (es : List JObj) :
    collect_usable es =
      (if es.any entry_bad then .error .typeErr else .ok (es.filter entry_usable)) := by
  induction es with
  | nil => simp [collect_usable]
  | cons e es ih =>
    simp only [collect_usable, collect_entry_spec e, ih]
    by_cases hb : entry_bad e
    · simp [hb]
    · by_cases hbs : es.any entry_bad
      · simp [hb, hbs]
      · by_cases hu : entry_usable e <;> simp [hb, hbs, hu, List.filter_cons]

/-- C7 counterexample: the database `[{"file": ""}]` — a single object entry
with an (empty-string) `file` value.  The claim's condition says this is not
an error, but the source filters the falsy value out, finds no translation
units, and exits with code 2. -/
theorem c7_counterexample :
    main_exit (some (some (.arr [.obj [("file", .str "")]]))) = 2
    ∧ claimC7_error (some (some (.arr [.obj [("file", .str "")]]))) = false := by
  constructor <;> rfl

/-- C7 (amended): the CLI exits 2 exactly when the database file is missing,
its content is not valid JSON, the top level is not an array, or — absent any
`TypeError`-raising entry — the array yields zero usable translation units,
where usable means an object entry whose `file` value is present and *truthy*
(Python truthiness, so empty strings etc. are filtered too); it crashes with
an uncaught `TypeError` (exit 1, not the claimed stderr-plus-2 path) exactly
when some object entry has a truthy `file` value but a non-string `file` or
truthy non-string `directory`; and it exits 0 in all remaining cases. -/
theorem c7_error_contract (db : DbInput) :
    (main_exit db = 2 ↔ amendedC7_exit2 db = true)
    ∧ (main_exit db = 1 ↔ amendedC7_exit1 db = true)
    ∧ (main_exit db = 0 ↔ (amendedC7_exit2 db = false ∧ amendedC7_exit1 db = false)) := by
  rcases db with _ | db
  · simp [main_exit, analyze_outcome, load_compile_commands, amendedC7_exit2, amendedC7_exit1]
  rcases db with _ | j
  · simp [main_exit, analyze_outcome, load_compile_commands, amendedC7_exit2, amendedC7_exit1]
  cases j with
  | arr entries =>
    simp only [main_exit, analyze_outcome, load_compile_commands, amendedC7_exit2,
      amendedC7_exit1, collect_usable_spec]
    by_cases hb : (entries.filterMap
        (fun e => match e with | .obj fs => some fs | _ => none)).any entry_bad
    · simp [hb]
    · by_cases he : ((entries.filterMap
          (fun e => match e with | .obj fs => some fs | _ => none)).filter entry_usable).isEmpty
      · simp [hb, he]
      · simp [hb, he]
  | null =>
    simp [main_exit, analyze_outcome, load_compile_commands, amendedC7_exit2, amendedC7_exit1]
  | bool b =>
    simp [main_exit, analyze_outcome, load_compile_commands, amendedC7_exit2, amendedC7_exit1]
  | num n =>
    simp [main_exit, analyze_outcome, load_compile_commands, amendedC7_exit2, amendedC7_exit1]
  | str s =>
    simp [main_exit, analyze_outcome, load_compile_commands, amendedC7_exit2, amendedC7_exit1]
  | obj fs =>
    simp [main_exit, analyze_outcome, load_compile_commands, amendedC7_exit2, amendedC7_exit1]

/-- C7 witness: a database with one well-formed entry exits 0; an empty array
exits 2. -/
theorem c7_error_contract_witness :
    main_exit (some (some (.arr [.obj [("file", .str "a.cpp")]]))) = 0
    ∧ main_exit (some (some (.arr []))) = 2 :=
  ⟨(c7_error_contract (some (some (.arr [.obj [("file", .str "a.cpp")]])))).2.2.mpr
      ⟨by rfl, by rfl⟩,
   (c7_error_contract (some (some (.arr [])))).1.mpr (by rfl)⟩

/-! ## Cycle detection (`_detect_cycle_nodes`)

Python's recursive `dfs` closure mutates `visited`, `on_stack`, `stack`,
`position` and `cycle_nodes`.  The embedding threads an explicit state:
`on_stack` is membership in `stack` (stored top-first), `position[child]`
together with `stack[start:]` becomes `stackSegment child stack` (the segment
from the top down to the first occurrence of `child`, or the whole stack when
absent — `position.get(child, 0)`), and the recursion carries fuel that
strictly exceeds the maximal possible DFS depth (one frame per unvisited
key), so the fuel-exhaustion branch is dead code. -/

/-- Graph nodes are resolved header paths. -/
abbrev Node := String

/-- The header graph: an insertion-ordered `dict` from node to its adjacency.
The adjacency list order models one iteration order of the Python adjacency
`set` (which is unspecified across processes). -/
structure Graph where
  entries : List (Node × List Node)

def Graph.keys (g : Graph) : List Node := g.entries.map Prod.fst

def Graph.adj (g : Graph) (n : Node) : List Node :=
  match g.entries.find? (fun e => e.1 == n) with
  | some e => e.2
  | none => []

/-- DFS state: the `visited` set, the explicit recursion `stack` (top first),
and the accumulated `cycle_nodes`. -/
structure DfsSt where
  visited : List Node
  stack : List Node
  cycles : List Node

/-- Python `stack[position[child]:]` with the stack stored top-first: the
segment from the top down to (and including) the first occurrence of `child`;
the whole stack when `child` is absent (`position.get(child, 0)`). -/
def stackSegment (child : Node) : List Node → List Node
  | [] => []
  | x :: xs => if x = child then [x] else x :: stackSegment child xs

/-- The `for child in graph.get(node, set())` loop body: children not in the
graph are skipped, unvisited children are recursed into (`recur`), and a
child already on the stack flags the whole stack segment. -/
def dfsChildrenAux (recur : Node → DfsSt → DfsSt) (g : Graph) :
    List Node → DfsSt → DfsSt
  | [], s => s
  | c :: cs, s =>
    let s' :=
      if c ∈ g.keys then
        if c ∈ s.visited then
          if c ∈ s.stack then
            { s with cycles := s.cycles ++ stackSegment c s.stack }
          else s
        else recur c s
      else s
    dfsChildrenAux recur g cs s'

/-- The recursive `dfs(node)`: mark visited, push, process children, pop. -/
def dfsNode (g : Graph) : Nat → Node → DfsSt → DfsSt
  | 0, _, s => s
  | fuel + 1, n, s =>
    let s1 : DfsSt := ⟨n :: s.visited, n :: s.stack, s.cycles⟩
    let s2 := dfsChildrenAux (fun c s' => dfsNode g fuel c s') g (g.adj n) s1
    ⟨s2.visited, s2.stack.tail, s2.cycles⟩

/-- The top-level `for node in graph: if node not in visited: dfs(node)`. -/
def runDfs (g : Graph) (fuel : Nat) : List Node → DfsSt → DfsSt
  | [], s => s
  | k :: ks, s =>
    runDfs g fuel ks (if k ∈ s.visited then s else dfsNode g fuel k s)

/-- Embedding of `_detect_cycle_nodes` (cycle membership; the Python result is
a set, so only membership in this list is meaningful). -/
def detect_cycle_nodes (g : Graph) : List Node :=
  (runDfs g (g.entries.length + 2) g.keys ⟨[], [], []⟩).cycles

theorem stackSegment_head (c x : Node) (xs : List Node) :
    x ∈ stackSegment c (x :: xs) := by
  simp only [stackSegment]
  split
  · exact List.mem_singleton.mpr rfl
  · exact List.mem_cons_self _ _

theorem stackSegment_self (c : Node) :
    ∀ stack : List Node, c ∈ stack → c ∈ stackSegment c stack := by
  intro stack
  induction stack with
  | nil => intro h; cases h
  | cons x xs ih =>
    intro h
    simp only [stackSegment]
    split
    · rename_i hx
      subst hx
      exact List.mem_singleton.mpr rfl
    · rename_i hx
      rcases List.mem_cons.mp h with h | h
      · exact absurd h.symm hx
      · exact List.mem_cons_of_mem _ (ih h)

theorem dfsChildrenAux_stack (recur : Node → DfsSt → DfsSt) (g : Graph)
    (hrec : ∀ n s, (recur n s).stack = s.stack) :
    ∀ (cs : List Node) (s : DfsSt), (dfsChildrenAux recur g cs s).stack = s.stack := by
  intro cs
  induction cs with
  | nil => intro s; rfl
  | cons c cs ih =>
    intro s
    simp only [dfsChildrenAux]
    rw [ih]
    split_ifs <;> simp [hrec]

theorem dfsChildrenAux_visited_mono (recur : Node → DfsSt → DfsSt) (g : Graph)
    (hrec : ∀ n s, s.visited ⊆ (recur n s).visited) :
    ∀ (cs : List Node) (s : DfsSt), s.visited ⊆ (dfsChildrenAux recur g cs s).visited := by
  intro cs
  induction cs with
  | nil => intro s; exact fun _ h => h
  | cons c cs ih =>
    intro s
    simp only [dfsChildrenAux]
    refine List.Subset.trans ?_ (ih _)
    split_ifs <;> first | exact fun _ h => h | exact hrec c s

theorem dfsChildrenAux_cycles_mono (recur : Node → DfsSt → DfsSt) (g : Graph)
    (hrec : ∀ n s, s.cycles ⊆ (recur n s).cycles) :
    ∀ (cs : List Node) (s : DfsSt), s.cycles ⊆ (dfsChildrenAux recur g cs s).cycles := by
  intro cs
  induction cs with
  | nil => intro s; exact fun _ h => h
  | cons c cs ih =>
    intro s
    simp only [dfsChildrenAux]
    refine List.Subset.trans ?_ (ih _)
    split_ifs <;>
      first
        | exact fun _ h => h
        | exact hrec c s
        | exact fun x hx => List.mem_append_left _ hx

theorem dfsNode_stack (g : Graph) :
    ∀ (fuel : Nat) (n : Node) (s : DfsSt), (dfsNode g fuel n s).stack = s.stack := by
  intro fuel
  induction fuel with
  | zero => intro n s; rfl
  | succ fuel ih =>
    intro n s
    simp only [dfsNode]
    rw [dfsChildrenAux_stack _ g (fun c s' => ih c s')]
    rfl

theorem dfsNode_visited_mono (g : Graph) :
    ∀ (fuel : Nat) (n : Node) (s : DfsSt), s.visited ⊆ (dfsNode g fuel n s).visited := by
  intro fuel
  induction fuel with
  | zero => intro n s; exact fun _ h => h
  | succ fuel ih =>
    intro n s
    simp only [dfsNode]
    intro x hx
    exact dfsChildrenAux_visited_mono _ g (fun c s' => ih c s') _ _
      (List.mem_cons_of_mem _ hx)

theorem dfsNode_cycles_mono (g : Graph) :
    ∀ (fuel : Nat) (n : Node) (s : DfsSt), s.cycles ⊆ (dfsNode g fuel n s).cycles := by
  intro fuel
  induction fuel with
  | zero => intro n s; exact fun _ h => h
  | succ fuel ih =>
    intro n s
    simp only [dfsNode]
    exact dfsChildrenAux_cycles_mono _ g (fun c s' => ih c s') (g.adj n)
      ⟨n :: s.visited, n :: s.stack, s.cycles⟩

theorem dfsNode_visits (g : Graph) (fuel : Nat) (hfuel : 1 ≤ fuel) (n : Node) (s : DfsSt) :
    n ∈ (dfsNode g fuel n s).visited := by
  cases fuel with
  | zero => omega
  | succ fuel =>
    simp only [dfsNode]
    exact dfsChildrenAux_visited_mono _ g (fun c s' => dfsNode_visited_mono g fuel c s') _ _
      (List.mem_cons_self _ _)

theorem dfsChildrenAux_flag (recur : Node → DfsSt → DfsSt) (g : Graph)
    (hstk : ∀ n s, (recur n s).stack = s.stack)
    (hvis : ∀ n s, s.visited ⊆ (recur n s).visited)
    (hcyc : ∀ n s, s.cycles ⊆ (recur n s).cycles) :
    ∀ (cs : List Node) (s : DfsSt) (c : Node), c ∈ cs → c ∈ g.keys →
      c ∈ s.visited → c ∈ s.stack →
      stackSegment c s.stack ⊆ (dfsChildrenAux recur g cs s).cycles := by
  intro cs
  induction cs with
  | nil => intro s c hc; cases hc
  | cons c0 cs ih =>
    intro s c hmem hkey hvisd hstkc
    simp only [dfsChildrenAux]
    by_cases h0 : c0 = c
    · subst h0
      rw [if_pos hkey, if_pos hvisd, if_pos hstkc]
      refine List.Subset.trans ?_ (dfsChildrenAux_cycles_mono recur g hcyc cs _)
      exact fun x hx => List.mem_append_right _ hx
    · have hc : c ∈ cs := by
        rcases List.mem_cons.mp hmem with h | h
        · exact absurd h.symm h0
        · exact h
      split_ifs with hk hv hs
      · exact ih { s with cycles := s.cycles ++ stackSegment c0 s.stack } c hc hkey hvisd hstkc
      · exact ih s c hc hkey hvisd hstkc
      · have h1 := ih (recur c0 s) c hc hkey (hvis _ _ hvisd) (by rw [hstk]; exact hstkc)
        rw [hstk] at h1
        exact h1
      · exact ih s c hc hkey hvisd hstkc

theorem dfsChildrenAux_visits (recur : Node → DfsSt → DfsSt) (g : Graph)
    (hvis : ∀ n s, s.visited ⊆ (recur n s).visited)
    (hself : ∀ n s, n ∈ (recur n s).visited) :
    ∀ (cs : List Node) (s : DfsSt) (b : Node), b ∈ cs → b ∈ g.keys →
      b ∈ (dfsChildrenAux recur g cs s).visited := by
  intro cs
  induction cs with
  | nil => intro s b hb; cases hb
  | cons c0 cs ih =>
    intro s b hmem hkey
    simp only [dfsChildrenAux]
    by_cases h0 : c0 = b
    · subst h0
      rw [if_pos hkey]
      by_cases hv : c0 ∈ s.visited
      · rw [if_pos hv]
        by_cases hs : c0 ∈ s.stack
        · rw [if_pos hs]
          exact dfsChildrenAux_visited_mono recur g hvis cs _ hv
        · rw [if_neg hs]
          exact dfsChildrenAux_visited_mono recur g hvis cs _ hv
      · rw [if_neg hv]
        exact dfsChildrenAux_visited_mono recur g hvis cs _ (hself c0 s)
    · have hb : b ∈ cs := by
        rcases List.mem_cons.mp hmem with h | h
        · exact absurd h.symm h0
        · exact h
      split_ifs with hk hv hs <;> exact ih _ b hb hkey

theorem dfsChildrenAux_backedge (recur : Node → DfsSt → DfsSt) (g : Graph) (X Y : Node)
    (hstk : ∀ n s, (recur n s).stack = s.stack)
    (hvis : ∀ n s, s.visited ⊆ (recur n s).visited)
    (hcyc : ∀ n s, s.cycles ⊆ (recur n s).cycles)
    (hrec : ∀ n s, s.stack ⊆ s.visited → Y ∉ s.visited → Y ∈ (recur n s).visited →
        X ∈ s.stack → X ∈ (recur n s).cycles ∧ Y ∈ (recur n s).cycles) :
    ∀ (cs : List Node) (s : DfsSt), s.stack ⊆ s.visited → Y ∉ s.visited →
      Y ∈ (dfsChildrenAux recur g cs s).visited → X ∈ s.stack →
      X ∈ (dfsChildrenAux recur g cs s).cycles ∧ Y ∈ (dfsChildrenAux recur g cs s).cycles := by
  intro cs
  induction cs with
  | nil => intro s hinv hY hYr hX; exact absurd hYr hY
  | cons c0 cs ih =>
    intro s hinv hY hYr hX
    simp only [dfsChildrenAux] at hYr ⊢
    split_ifs at hYr ⊢ with hk hv hs
    · exact ih _ hinv hY hYr hX
    · exact ih _ hinv hY hYr hX
    · by_cases hY' : Y ∈ (recur c0 s).visited
      · have hflag := hrec c0 s hinv hY hY' hX
        exact ⟨dfsChildrenAux_cycles_mono recur g hcyc cs _ hflag.1,
               dfsChildrenAux_cycles_mono recur g hcyc cs _ hflag.2⟩
      · refine ih _ ?_ hY' hYr ?_
        · rw [hstk]
          exact fun x hx => hvis c0 s (hinv hx)
        · rw [hstk]
          exact hX
    · exact ih _ hinv hY hYr hX

theorem dfsNode_backedge (g : Graph) (X Y : Node) (hXk : X ∈ g.keys) (hXY : X ∈ g.adj Y) :
    ∀ (fuel : Nat) (n : Node) (s : DfsSt), s.stack ⊆ s.visited → Y ∉ s.visited →
      Y ∈ (dfsNode g fuel n s).visited → X ∈ s.stack →
      X ∈ (dfsNode g fuel n s).cycles ∧ Y ∈ (dfsNode g fuel n s).cycles := by
  intro fuel
  induction fuel with
  | zero => intro n s _ hY hYr _; exact absurd hYr hY
  | succ fuel ih =>
    intro n s hinv hY hYr hX
    simp only [dfsNode] at hYr ⊢
    by_cases hn : n = Y
    · subst hn
      have hXvis : X ∈ s.visited := hinv hX
      have hseg := dfsChildrenAux_flag (fun c s' => dfsNode g fuel c s') g
        (fun c s' => dfsNode_stack g fuel c s')
        (fun c s' => dfsNode_visited_mono g fuel c s')
        (fun c s' => dfsNode_cycles_mono g fuel c s')
        (g.adj n) ⟨n :: s.visited, n :: s.stack, s.cycles⟩ X hXY hXk
        (List.mem_cons_of_mem _ hXvis) (List.mem_cons_of_mem _ hX)
      exact ⟨hseg (stackSegment_self X _ (List.mem_cons_of_mem _ hX)),
             hseg (stackSegment_head X n s.stack)⟩
    · refine dfsChildrenAux_backedge (fun c s' => dfsNode g fuel c s') g X Y
        (fun c s' => dfsNode_stack g fuel c s')
        (fun c s' => dfsNode_visited_mono g fuel c s')
        (fun c s' => dfsNode_cycles_mono g fuel c s')
        (fun c s' h1 h2 h3 h4 => ih c s' h1 h2 h3 h4)
        (g.adj n) ⟨n :: s.visited, n :: s.stack, s.cycles⟩ ?_ ?_ hYr
        (List.mem_cons_of_mem _ hX)
      · intro x hx
        rcases List.mem_cons.mp hx with h | h
        · exact h ▸ List.mem_cons_self _ _
        · exact List.mem_cons_of_mem _ (hinv h)
      · intro hmem
        rcases List.mem_cons.mp hmem with h | h
        · exact hn h.symm
        · exact hY h

theorem filter_length_mono {α : Type} (l : List α) (p q : α → Bool)
    (h : ∀ a ∈ l, p a = true → q a = true) :
    (l.filter p).length ≤ (l.filter q).length := by
  induction l with
  | nil => simp
  | cons x xs ih =>
    have ih' := ih (fun a ha hp => h a (List.mem_cons_of_mem _ ha) hp)
    by_cases hp : p x
    · have hq := h x (List.mem_cons_self _ _) hp
      simp only [List.filter_cons, hp, hq, if_true, List.length_cons]
      omega
    · by_cases hq : q x <;>
        simp only [List.filter_cons, hp, hq, if_true, if_false, Bool.false_eq_true,
          List.length_cons] <;> omega

theorem filter_length_lt {α : Type} (l : List α) (p q : α → Bool)
    (himp : ∀ a ∈ l, q a = true → p a = true) (a : α) (ha : a ∈ l)
    (hpa : p a = true) (hqa : q a = false) :
    (l.filter q).length < (l.filter p).length := by
  induction l with
  | nil => cases ha
  | cons x xs ih =>
    by_cases hx : x = a
    · subst hx
      have hmono := filter_length_mono xs q p
        (fun b hb => himp b (List.mem_cons_of_mem _ hb))
      simp only [List.filter_cons, hpa, hqa, if_true, if_false, Bool.false_eq_true,
        List.length_cons]
      omega
    · have ha' : a ∈ xs := by
        rcases List.mem_cons.mp ha with h | h
        · exact absurd h.symm hx
        · exact h
      have ih' := ih (fun b hb => himp b (List.mem_cons_of_mem _ hb)) ha'
      by_cases hqx : q x
      · have hpx := himp x (List.mem_cons_self _ _) hqx
        simp only [List.filter_cons, hqx, hpx, if_true, List.length_cons]
        omega
      · by_cases hpx : p x <;>
          simp only [List.filter_cons, hqx, hpx, if_true, if_false, Bool.false_eq_true,
            List.length_cons] <;> omega

/-- Number of graph keys not yet visited — the bound on the remaining DFS
recursion depth. -/
def unvisCount (g : Graph) (visited : List Node) : Nat :=
  (g.keys.filter (fun k => decide (k ∉ visited))).length

theorem unvisCount_mono (g : Graph) {v1 v2 : List Node} (h : v1 ⊆ v2) :
    unvisCount g v2 ≤ unvisCount g v1 :=
  filter_length_mono _ _ _ (fun a _ hp => by
    simp only [decide_eq_true_eq] at hp ⊢
    exact fun hm => hp (h hm))

theorem unvisCount_push (g : Graph) (n : Node) (v : List Node)
    (hk : n ∈ g.keys) (hnv : n ∉ v) :
    unvisCount g (n :: v) < unvisCount g v :=
  filter_length_lt g.keys (fun k => decide (k ∉ v)) (fun k => decide (k ∉ n :: v))
    (fun a _ hq => by
      simp only [decide_eq_true_eq, List.mem_cons, not_or] at hq ⊢
      exact hq.2)
    n hk (by simp [hnv]) (by simp)

theorem unvisCount_le (g : Graph) (v : List Node) :
    unvisCount g v ≤ g.entries.length := by
  have h1 : (g.keys.filter (fun k => decide (k ∉ v))).length ≤ g.keys.length :=
    List.length_filter_le _ _
  have h2 : g.keys.length = g.entries.length := by simp [Graph.keys]
  unfold unvisCount
  omega

theorem unvisCount_pos (g : Graph) (v : List Node) (n : Node)
    (hk : n ∈ g.keys) (hnv : n ∉ v) : 0 < unvisCount g v := by
  have hmem : n ∈ g.keys.filter (fun k => decide (k ∉ v)) :=
    List.mem_filter.mpr ⟨hk, by simp [hnv]⟩
  exact List.length_pos_of_mem hmem

theorem dfsChildrenAux_progress (g : Graph) (A B : Node) (fuel : Nat)
    (hnode : ∀ (c : Node) (s' : DfsSt), unvisCount g s'.visited < fuel → c ∈ g.keys →
        c ∉ s'.visited → s'.stack ⊆ s'.visited → A ∉ s'.visited → B ∉ s'.visited →
        (A ∉ (dfsNode g fuel c s').visited ∧ B ∉ (dfsNode g fuel c s').visited)
        ∨ (A ∈ (dfsNode g fuel c s').cycles ∧ B ∈ (dfsNode g fuel c s').cycles)) :
    ∀ (cs : List Node) (s : DfsSt), unvisCount g s.visited < fuel →
      s.stack ⊆ s.visited → A ∉ s.visited → B ∉ s.visited →
      (A ∉ (dfsChildrenAux (fun c s' => dfsNode g fuel c s') g cs s).visited
        ∧ B ∉ (dfsChildrenAux (fun c s' => dfsNode g fuel c s') g cs s).visited)
      ∨ (A ∈ (dfsChildrenAux (fun c s' => dfsNode g fuel c s') g cs s).cycles
        ∧ B ∈ (dfsChildrenAux (fun c s' => dfsNode g fuel c s') g cs s).cycles) := by
  intro cs
  induction cs with
  | nil => intro s hcount hinv hA hB; exact Or.inl ⟨hA, hB⟩
  | cons c0 cs ih =>
    intro s hcount hinv hA hB
    simp only [dfsChildrenAux]
    split_ifs with hk hv hs
    · exact ih { s with cycles := s.cycles ++ stackSegment c0 s.stack } hcount hinv hA hB
    · exact ih s hcount hinv hA hB
    · rcases hnode c0 s hcount hk hv hinv hA hB with ⟨hA', hB'⟩ | ⟨hA', hB'⟩
      · refine ih (dfsNode g fuel c0 s) ?_ ?_ hA' hB'
        · exact lt_of_le_of_lt (unvisCount_mono g (dfsNode_visited_mono g fuel c0 s)) hcount
        · rw [dfsNode_stack]
          exact fun x hx => dfsNode_visited_mono g fuel c0 s (hinv hx)
      · exact Or.inr
          ⟨dfsChildrenAux_cycles_mono _ g (fun c s' => dfsNode_cycles_mono g fuel c s') cs _ hA',
           dfsChildrenAux_cycles_mono _ g (fun c s' => dfsNode_cycles_mono g fuel c s') cs _ hB'⟩
    · exact ih s hcount hinv hA hB

theorem dfsNode_progress (g : Graph) (A B : Node) (hne : A ≠ B)
    (hAk : A ∈ g.keys) (hBk : B ∈ g.keys) (hAB : B ∈ g.adj A) (hBA : A ∈ g.adj B) :
    ∀ (fuel : Nat) (n : Node) (s : DfsSt), unvisCount g s.visited < fuel → n ∈ g.keys →
      n ∉ s.visited → s.stack ⊆ s.visited → A ∉ s.visited → B ∉ s.visited →
      (A ∉ (dfsNode g fuel n s).visited ∧ B ∉ (dfsNode g fuel n s).visited)
      ∨ (A ∈ (dfsNode g fuel n s).cycles ∧ B ∈ (dfsNode g fuel n s).cycles) := by
  intro fuel
  induction fuel with
  | zero => intro n s hcount _ _ _ _ _; exact absurd hcount (Nat.not_lt_zero _)
  | succ fuel ih =>
    intro n s hcount hkn hnv hinv hA hB
    have hfuel1 : 1 ≤ fuel := by
      have h1 : 0 < unvisCount g s.visited := unvisCount_pos g s.visited n hkn hnv
      omega
    simp only [dfsNode]
    by_cases hnA : n = A
    · subst hnA
      have hBvis : B ∈ (dfsChildrenAux (fun c s' => dfsNode g fuel c s') g (g.adj n)
          ⟨n :: s.visited, n :: s.stack, s.cycles⟩).visited :=
        dfsChildrenAux_visits _ g (fun c s' => dfsNode_visited_mono g fuel c s')
          (fun c s' => dfsNode_visits g fuel hfuel1 c s') (g.adj n) _ B hAB hBk
      have hBout : B ∉ (⟨n :: s.visited, n :: s.stack, s.cycles⟩ : DfsSt).visited := by
        intro hmem
        rcases List.mem_cons.mp hmem with h | h
        · exact hne h.symm
        · exact hB h
      have hflag := dfsChildrenAux_backedge (fun c s' => dfsNode g fuel c s') g n B
        (fun c s' => dfsNode_stack g fuel c s')
        (fun c s' => dfsNode_visited_mono g fuel c s')
        (fun c s' => dfsNode_cycles_mono g fuel c s')
        (fun c s' h1 h2 h3 h4 => dfsNode_backedge g n B hAk hBA fuel c s' h1 h2 h3 h4)
        (g.adj n) ⟨n :: s.visited, n :: s.stack, s.cycles⟩
        (by
          intro x hx
          rcases List.mem_cons.mp hx with h | h
          · exact h ▸ List.mem_cons_self _ _
          · exact List.mem_cons_of_mem _ (hinv h))
        hBout hBvis (List.mem_cons_self n s.stack)
      exact Or.inr hflag
    · by_cases hnB : n = B
      · subst hnB
        have hAvis : A ∈ (dfsChildrenAux (fun c s' => dfsNode g fuel c s') g (g.adj n)
            ⟨n :: s.visited, n :: s.stack, s.cycles⟩).visited :=
          dfsChildrenAux_visits _ g (fun c s' => dfsNode_visited_mono g fuel c s')
            (fun c s' => dfsNode_visits g fuel hfuel1 c s') (g.adj n) _ A hBA hAk
        have hAout : A ∉ (⟨n :: s.visited, n :: s.stack, s.cycles⟩ : DfsSt).visited := by
          intro hmem
          rcases List.mem_cons.mp hmem with h | h
          · exact hne (h.symm ▸ rfl)
          · exact hA h
        have hflag := dfsChildrenAux_backedge (fun c s' => dfsNode g fuel c s') g n A
          (fun c s' => dfsNode_stack g fuel c s')
          (fun c s' => dfsNode_visited_mono g fuel c s')
          (fun c s' => dfsNode_cycles_mono g fuel c s')
          (fun c s' h1 h2 h3 h4 => dfsNode_backedge g n A hBk hAB fuel c s' h1 h2 h3 h4)
          (g.adj n) ⟨n :: s.visited, n :: s.stack, s.cycles⟩
          (by
            intro x hx
            rcases List.mem_cons.mp hx with h | h
            · exact h ▸ List.mem_cons_self _ _
            · exact List.mem_cons_of_mem _ (hinv h))
          hAout hAvis (List.mem_cons_self n s.stack)
        exact Or.inr ⟨hflag.2, hflag.1⟩
      · have hA1 : A ∉ (n :: s.visited) := by
          intro hmem
          rcases List.mem_cons.mp hmem with h | h
          · exact hnA h.symm
          · exact hA h
        have hB1 : B ∉ (n :: s.visited) := by
          intro hmem
          rcases List.mem_cons.mp hmem with h | h
          · exact hnB h.symm
          · exact hB h
        have hcount1 : unvisCount g (n :: s.visited) < fuel := by
          have h2 := unvisCount_push g n s.visited hkn hnv
          omega
        have hinv1 : (n :: s.stack) ⊆ (n :: s.visited) := by
          intro x hx
          rcases List.mem_cons.mp hx with h | h
          · exact h ▸ List.mem_cons_self _ _
          · exact List.mem_cons_of_mem _ (hinv h)
        have h := dfsChildrenAux_progress g A B fuel
          (fun c s' a b c' d e f => ih c s' a b c' d e f)
          (g.adj n) ⟨n :: s.visited, n :: s.stack, s.cycles⟩ hcount1 hinv1 hA1 hB1
        rcases h with ⟨h1, h2⟩ | ⟨h1, h2⟩
        · exact Or.inl ⟨h1, h2⟩
        · exact Or.inr ⟨h1, h2⟩

theorem runDfs_visited_mono (g : Graph) (fuel : Nat) :
    ∀ (ks : List Node) (s : DfsSt), s.visited ⊆ (runDfs g fuel ks s).visited := by
  intro ks
  induction ks with
  | nil => intro s; exact fun _ h => h
  | cons k ks ih =>
    intro s
    simp only [runDfs]
    refine List.Subset.trans ?_ (ih _)
    split_ifs
    · exact fun _ h => h
    · exact dfsNode_visited_mono g fuel k s

theorem runDfs_visits (g : Graph) (fuel : Nat) (hfuel : 1 ≤ fuel) :
    ∀ (ks : List Node) (s : DfsSt) (k : Node), k ∈ ks →
      k ∈ (runDfs g fuel ks s).visited := by
  intro ks
  induction ks with
  | nil => intro s k hk; cases hk
  | cons k0 ks ih =>
    intro s k hk
    simp only [runDfs]
    by_cases h0 : k0 = k
    · subst h0
      refine runDfs_visited_mono g fuel ks _ ?_
      split_ifs with hv
      · exact hv
      · exact dfsNode_visits g fuel hfuel k0 s
    · have hk' : k ∈ ks := by
        rcases List.mem_cons.mp hk with h | h
        · exact absurd h.symm h0
        · exact h
      exact ih _ k hk'

theorem runDfs_progress (g : Graph) (A B : Node) (hne : A ≠ B)
    (hAk : A ∈ g.keys) (hBk : B ∈ g.keys) (hAB : B ∈ g.adj A) (hBA : A ∈ g.adj B)
    (fuel : Nat) :
    ∀ (ks : List Node) (s : DfsSt), (∀ k ∈ ks, k ∈ g.keys) →
      unvisCount g s.visited < fuel → s.stack ⊆ s.visited →
      ((A ∉ s.visited ∧ B ∉ s.visited) ∨ (A ∈ s.cycles ∧ B ∈ s.cycles)) →
      ((A ∉ (runDfs g fuel ks s).visited ∧ B ∉ (runDfs g fuel ks s).visited)
        ∨ (A ∈ (runDfs g fuel ks s).cycles ∧ B ∈ (runDfs g fuel ks s).cycles)) := by
  intro ks
  induction ks with
  | nil => intro s _ _ _ hdisj; exact hdisj
  | cons k0 ks ih =>
    intro s hks hcount hinv hdisj
    simp only [runDfs]
    split_ifs with hv
    · exact ih s (fun k hk => hks k (List.mem_cons_of_mem _ hk)) hcount hinv hdisj
    · have hk0 : k0 ∈ g.keys := hks k0 (List.mem_cons_self _ _)
      have hcount' : unvisCount g (dfsNode g fuel k0 s).visited < fuel :=
        lt_of_le_of_lt (unvisCount_mono g (dfsNode_visited_mono g fuel k0 s)) hcount
      have hinv' : (dfsNode g fuel k0 s).stack ⊆ (dfsNode g fuel k0 s).visited := by
        rw [dfsNode_stack]
        exact fun x hx => dfsNode_visited_mono g fuel k0 s (hinv hx)
      rcases hdisj with ⟨hA, hB⟩ | ⟨hA, hB⟩
      · exact ih _ (fun k hk => hks k (List.mem_cons_of_mem _ hk)) hcount' hinv'
          (dfsNode_progress g A B hne hAk hBk hAB hBA fuel k0 s hcount hk0 hv hinv hA hB)
      · exact ih _ (fun k hk => hks k (List.mem_cons_of_mem _ hk)) hcount' hinv'
          (Or.inr ⟨dfsNode_cycles_mono g fuel k0 s hA, dfsNode_cycles_mono g fuel k0 s hB⟩)

/-- C5: the back-edge handling of `_detect_cycle_nodes` adds the entire stack
segment from the on-stack neighbour's recorded position up to the current top
to the cycle set (first conjunct, stated on the embedded child-processing
step), and consequently the detector is symmetric on mutual includes: in any
graph where distinct nodes `A` and `B` each directly include the other, both
are flagged. -/
theorem c5_cycle_detection (g : Graph) (A B : Node) (hne : A ≠ B)
    (hAk : A ∈ g.keys) (hBk : B ∈ g.keys) (hAB : B ∈ g.adj A) (hBA : A ∈ g.adj B) :
    (∀ (fuel : Nat) (c : Node) (cs : List Node) (s : DfsSt), c ∈ g.keys → c ∈ s.visited →
        c ∈ s.stack → stackSegment c s.stack ⊆
          (dfsChildrenAux (fun a b => dfsNode g fuel a b) g (c :: cs) s).cycles)
    ∧ A ∈ detect_cycle_nodes g ∧ B ∈ detect_cycle_nodes g := by
  constructor
  · intro fuel c cs s hk hv hs
    exact dfsChildrenAux_flag _ g
      (fun c' s' => dfsNode_stack g fuel c' s')
      (fun c' s' => dfsNode_visited_mono g fuel c' s')
      (fun c' s' => dfsNode_cycles_mono g fuel c' s')
      (c :: cs) s c (List.mem_cons_self _ _) hk hv hs
  · have hF : unvisCount g ([] : List Node) < g.entries.length + 2 :=
      lt_of_le_of_lt (unvisCount_le g []) (by omega)
    have hrun := runDfs_progress g A B hne hAk hBk hAB hBA (g.entries.length + 2)
      g.keys ⟨[], [], []⟩ (fun k hk => hk) hF
      (fun x hx => absurd hx (List.not_mem_nil x))
      (Or.inl ⟨List.not_mem_nil A, List.not_mem_nil B⟩)
    have hAvis := runDfs_visits g (g.entries.length + 2) (by omega) g.keys ⟨[], [], []⟩ A hAk
    rcases hrun with ⟨h1, _⟩ | ⟨h1, h2⟩
    · exact absurd hAvis h1
    · exact ⟨h1, h2⟩

/-- A two-node mutual-include graph. -/
def mutualPair : Graph :=
  ⟨[("include/core/cycle_a.hpp", ["include/core/cycle_b.hpp"]),
    ("include/core/cycle_b.hpp", ["include/core/cycle_a.hpp"])]⟩

/-- C5 witness: both headers of a concrete mutual-include pair are flagged. -/
theorem c5_cycle_detection_witness :
    "include/core/cycle_a.hpp" ∈ detect_cycle_nodes mutualPair
    ∧ "include/core/cycle_b.hpp" ∈ detect_cycle_nodes mutualPair :=
  (c5_cycle_detection mutualPair "include/core/cycle_a.hpp" "include/core/cycle_b.hpp"
    (by decide) (by decide) (by decide) (by decide) (by decide)).2

/-! ## Determinism across runs (C9)

The analysis is a pure function of the compile database, the source tree and
the iteration orders of Python's hash-based sets.  The candidate ranking is
invariant under the enumeration order of the candidates (proved below), but
the cycle-node set is not invariant under the adjacency-set iteration order,
which Python does not fix across processes. -/

/-- Non-strict order on sort keys. -/
def keyLe (a b : Int × Int × Int × String) : Prop := keyLt a b ∨ a = b

/-- `a` sorts no later than `b`: descending comparison on the key tuples. -/
def cand_le (a b : Candidate) : Prop := keyLe (rankKey b) (rankKey a)

instance : DecidableRel cand_le := fun a b => by
  unfold cand_le keyLe
  infer_instance

instance : IsTrans Candidate cand_le :=
  ⟨by
    intro a b c hab hbc
    rcases hab with h1 | h1 <;> rcases hbc with h2 | h2
    · exact Or.inl (keyLt_trans h2 h1)
    · exact Or.inl (h2 ▸ h1)
    · exact Or.inl (h1 ▸ h2)
    · exact Or.inr (h2.trans h1)⟩

instance : IsTotal Candidate cand_le :=
  ⟨by
    intro a b
    rcases keyLt_total (rankKey a) (rankKey b) with h | h | h
    · exact Or.inr (Or.inl h)
    · exact Or.inl (Or.inl h)
    · exact Or.inl (Or.inr h.symm)⟩

/-- The candidate sort of `analyze_compile_commands` lines 205-213: a stable
sort descending on the key tuple (any two stable sorts with the same
comparator produce the same list, so insertion sort models Python's stable
`list.sort`). -/
def sort_candidates (l : List Candidate) : List Candidate :=
  List.insertionSort cand_le l

theorem sorted_nodup_header_unique :
    ∀ (u v : List Candidate), List.Sorted cand_le u → List.Sorted cand_le v → u.Perm v →
      (u.map Candidate.header).Nodup → u = v := by
  intro u
  induction u with
  | nil =>
    intro v _ _ hp _
    exact hp.nil_eq
  | cons a u ih =>
    intro v hu hv hp hnd
    cases v with
    | nil => simpa using hp.length_eq
    | cons b v =>
      by_cases hab : a = b
      · subst hab
        have hp' : u.Perm v := hp.cons_inv
        have hndu : (u.map Candidate.header).Nodup := (List.nodup_cons.mp hnd).2
        rw [ih v hu.of_cons hv.of_cons hp' hndu]
      · exfalso
        have hbv : b ∈ a :: u := hp.mem_iff.mpr (List.mem_cons_self _ _)
        have hav : a ∈ b :: v := hp.mem_iff.mp (List.mem_cons_self _ _)
        have hb_u : b ∈ u := by
          rcases List.mem_cons.mp hbv with h | h
          · exact absurd h.symm hab
          · exact h
        have ha_v : a ∈ v := by
          rcases List.mem_cons.mp hav with h | h
          · exact absurd h hab
          · exact h
        have h1 : cand_le a b := List.rel_of_sorted_cons hu b hb_u
        have h2 : cand_le b a := List.rel_of_sorted_cons hv a ha_v
        have hkeys : rankKey a = rankKey b := by
          rcases h1 with h1 | h1 <;> rcases h2 with h2 | h2
          · exact absurd (keyLt_trans h1 h2) (keyLt_irrefl _)
          · exact h2
          · exact h1.symm
          · exact h2
        have hhead : a.header = b.header := (rankKey_eq_fields hkeys).1
        have hmem : b.header ∈ u.map Candidate.header := List.mem_map_of_mem _ hb_u
        rw [← hhead] at hmem
        exact (List.nodup_cons.mp hnd).1 hmem

/-- Two same-shaped adjacency orderings of one graph (identical keys,
identical edge sets): only the order in which `b.hpp`'s two out-edges are
enumerated differs — one iteration order of the Python adjacency `set`
versus another. -/
def orderA : Graph :=
  ⟨[("b.hpp", ["a.hpp", "c.hpp"]), ("a.hpp", ["b.hpp"]), ("c.hpp", ["a.hpp"])]⟩

/-- Same graph as `orderA` with `b.hpp`'s adjacency enumerated in the other
order. -/
def orderB : Graph :=
  ⟨[("b.hpp", ["c.hpp", "a.hpp"]), ("a.hpp", ["b.hpp"]), ("c.hpp", ["a.hpp"])]⟩

/-- C9 counterexample: two runs over the same header graph (same keys, same
edge sets, different adjacency-set iteration order) disagree on whether
`c.hpp` participates in a cycle, so re-running on identical input need not
yield an identical report. -/
theorem c9_counterexample :
    orderA.keys = orderB.keys
    ∧ (∀ n ∈ orderA.keys, (orderA.adj n).Perm (orderB.adj n))
    ∧ "c.hpp" ∈ detect_cycle_nodes orderB
    ∧ "c.hpp" ∉ detect_cycle_nodes orderA := by
  refine ⟨rfl, by decide, by decide, by decide⟩

/-- C9 (amended): the embedded analysis is a pure function of its inputs
together with the set-iteration orders, and the candidate ranking is
deterministic — sorting any two enumerations of the same candidate set (with
distinct headers) yields the identical list; but the cycle-node set is not
invariant under the adjacency-set iteration order (see the counterexample),
so byte-identical reports across runs hold only when those orders are
fixed. -/
theorem c9_sort_deterministic (l1 l2 : List Candidate) (hp : l1.Perm l2)
    (hnd : (l1.map Candidate.header).Nodup) :
    sort_candidates l1 = sort_candidates l2 := by
  have h1 : List.Sorted cand_le (sort_candidates l1) :=
    List.sorted_insertionSort cand_le l1
  have h2 : List.Sorted cand_le (sort_candidates l2) :=
    List.sorted_insertionSort cand_le l2
  have hperm : (sort_candidates l1).Perm (sort_candidates l2) :=
    (List.perm_insertionSort cand_le l1).trans
      (hp.trans (List.perm_insertionSort cand_le l2).symm)
  have hnd1 : ((sort_candidates l1).map Candidate.header).Nodup :=
    (((List.perm_insertionSort cand_le l1).map Candidate.header).nodup_iff).mpr hnd
  exact sorted_nodup_header_unique _ _ h1 h2 hperm hnd1

/-- C9 witness: two enumeration orders of the same two candidates sort to the
identical list. -/
theorem c9_sort_deterministic_witness :
    sort_candidates
        [⟨"x.hpp", 3, 0, false, 10, "low", "P1 header unit candidate", [], some "x"⟩,
         ⟨"y.hpp", 1, 2, false, 20, "low", "P1 header unit candidate", [], some "y"⟩]
      = sort_candidates
        [⟨"y.hpp", 1, 2, false, 20, "low", "P1 header unit candidate", [], some "y"⟩,
         ⟨"x.hpp", 3, 0, false, 10, "low", "P1 header unit candidate", [], some "x"⟩] :=
  c9_sort_deterministic _ _ (by decide) (by decide)

end ModpathCpp
